import Mathlib

/-!
# Verification of the cpu-power telemetry engine

Shallow embedding of the power-telemetry engine of the `cpu-power`
repository (Rust), together with proofs of the specification's claims.

Conventions of the embedding:
* Rust `u64` values are modelled as `Nat`; wrapping (release-mode) semantics
  is made explicit with `% U64` at the operations where overflow can occur.
* Rust `HashMap` values are modelled as association lists
  (`List (key × value)`); the program only ever builds maps with pairwise
  distinct keys, which the theorems assume where it matters.
* Rust `f64` values are modelled as `ℚ`; the `as u64` cast of a
  non-negative float is modelled as `Int.toNat ∘ Int.floor`.
* External inputs (MSR reads, `/proc/stat` utilization samples, sysfs
  directory contents, timers and threads) enter the model as explicit
  function arguments.
-/

/-- `CoreType` from `src/cpu_type.rs`: P-core / E-core / unknown. -/
inductive CoreType where
  | PCore
  | ECore
  | Unknown
deriving DecidableEq, Repr

/-- First-match association-list lookup, the model of `HashMap::get`. -/
def lookupA {β : Type _} : List (Nat × β) → Nat → Option β
  | [], _ => none
  | (k, v) :: rest, key => if k = key then some v else lookupA rest key

/-- Model of `HashMap::insert`: replace the first binding of the key in
place, or append a fresh binding. -/
def insertA {β : Type _} : List (Nat × β) → Nat → β → List (Nat × β)
  | [], k, v => [(k, v)]
  | (k', v') :: rest, k, v =>
      if k' = k then (k, v) :: rest else (k', v') :: insertA rest k v

/-! ## Constants (`src/constants.rs`) -/

/-- `AVERAGING_ITERATIONS` from `src/constants.rs`. -/
def AVERAGING_ITERATIONS : Nat := 10

/-- `POWER_SCALE` from `src/constants.rs`. -/
def POWER_SCALE : Nat := 1000000

/-- One past the largest `u64` value; used to express wrapping arithmetic. -/
def U64 : Nat := 2 ^ 64

/-! ## Power math (`src/util/mod.rs`) -/

/-- `calculate_power_uw` from `src/util/mod.rs`, with release-mode `u64`
wrapping made explicit (`% U64` after every addition/multiplication that can
overflow, and the shift amount masked to the word size).  Inputs are `u64`
counter values, an interval in milliseconds and the unit exponent. -/
def calculate_power_uw (energy_start energy_end time_interval_ms energy_unit : Nat) : Nat :=
  let energy_difference :=
    if energy_end < energy_start then
      -- Handle counter wrap-around: `energy_end + 0xFFFF_FFFF - energy_start`
      (energy_end + 0xFFFFFFFF + U64 - energy_start) % U64
    else
      energy_end - energy_start
  -- Convert to microjoules based on the energy unit
  let energy_uj := ((energy_difference * POWER_SCALE) % U64) >>> (energy_unit % 64)
  -- Convert to microwatts (µJ/ms = µW)
  ((energy_uj * 1000) % U64) / time_interval_ms

example : calculate_power_uw 100 150 100 0 = (50 * 1000000) * 1000 / 100 := by decide
example : calculate_power_uw 0xFFFFFFF0 0x10 100 0 = (0x1F * 1000000) * 1000 / 100 := by decide

/-! ## Topology discovery (`src/mapper/mod.rs`, `src/mapper/intel.rs`,
`src/mapper/amd.rs`)

The two maps owned by `CpuTopology`:
`core_to_threads : physical core id → (thread ids, core type)` and
`thread_to_core : thread id → (physical core id, core type)`. -/

/-- The pair of topology maps built by `read_topology_from_sysfs` and by the
vendor fallbacks of `map_threads_to_cores`. -/
structure TopoMaps where
  core_to_threads : List (Nat × (List Nat × CoreType))
  thread_to_core : List (Nat × (Nat × CoreType))
deriving Repr, DecidableEq

/-- Model of the `entry(core_id).and_modify(...).or_insert_with(...)` step
shared by the topology builders: push the thread onto an existing bucket
(combining the stored core type with the thread's detected type via `upd`),
or create the bucket.  For the sysfs path and the Intel fallback `upd`
upgrades an `Unknown` stored type; for the AMD fallback it keeps the stored
type unchanged. -/
def addToCore (upd : CoreType → CoreType → CoreType) :
    List (Nat × (List Nat × CoreType)) → Nat → Nat → CoreType →
    List (Nat × (List Nat × CoreType))
  | [], core, cpu, ct => [(core, ([cpu], ct))]
  | (c, (ths, t)) :: rest, core, cpu, ct =>
      if c = core then (c, (ths ++ [cpu], upd t ct)) :: rest
      else (c, (ths, t)) :: addToCore upd rest core cpu ct

/-- One loop iteration of the topology builders: a `(cpu_id, core_id)` pair
is added to both maps, with `ctype cpu` the detected core type of the
thread (`detect_core_type`, an external probe). -/
def addThread (upd : CoreType → CoreType → CoreType) (ctype : Nat → CoreType)
    (m : TopoMaps) (p : Nat × Nat) : TopoMaps :=
  { core_to_threads := addToCore upd m.core_to_threads p.2 p.1 (ctype p.1)
    thread_to_core := insertA m.thread_to_core p.1 (p.2, ctype p.1) }

/-- The accumulation loop shared by `read_topology_from_sysfs` and the two
vendor fallbacks, over a list of `(cpu_id, core_id)` pairs. -/
def buildTopo (upd : CoreType → CoreType → CoreType) (ctype : Nat → CoreType)
    (entries : List (Nat × Nat)) : TopoMaps :=
  entries.foldl (addThread upd ctype) ⟨[], []⟩

/-- The type-combining step of the sysfs path and the Intel fallback:
`if *existing_type == CoreType::Unknown { *existing_type = core_type }`. -/
def updUnknown (old new : CoreType) : CoreType :=
  if old = CoreType.Unknown then new else old

/-- `read_topology_from_sysfs` from `src/mapper/mod.rs`, over the parsed
sysfs contents: `entries` is the list of `(cpu_id, core_id)` pairs read from
the `cpuN/topology/core_id` attributes (one per `cpuN` directory, so the cpu
ids are pairwise distinct), and `ctype` is `detect_core_type`.  Returns
`none` (the `NotFound` error) when no entry was parsed. -/
def read_topology_from_sysfs (entries : List (Nat × Nat))
    (ctype : Nat → CoreType) : Option TopoMaps :=
  let m := buildTopo updUnknown ctype entries
  if m.core_to_threads.isEmpty then none else some m

/-- The arithmetic fallback of `IntelCoreMapper::map_threads_to_cores`
(`src/mapper/intel.rs`): thread `t` maps to core `t` when `t` is below the
physical core count and to core `t % physical_cores` otherwise. -/
def intel_map_threads_to_cores (total_threads physical_cores : Nat)
    (ctype : Nat → CoreType) : TopoMaps :=
  buildTopo updUnknown ctype
    ((List.range total_threads).map fun t =>
      (t, if t < physical_cores then t else t % physical_cores))

/-- The arithmetic fallback of `AmdCoreMapper::map_threads_to_cores`
(`src/mapper/amd.rs`): thread `t` maps to core `t / threads_per_core`, and
every core is tagged `Unknown`; the bucket-update step leaves the stored
type unchanged. -/
def amd_map_threads_to_cores (total_threads physical_cores : Nat) : TopoMaps :=
  let threads_per_core :=
    if 0 < physical_cores then total_threads / physical_cores else 1
  buildTopo (fun old _ => old) (fun _ => CoreType.Unknown)
    ((List.range total_threads).map fun t => (t, t / threads_per_core))

/-- All thread ids stored in the `core_to_threads` buckets of a topology. -/
def threadsOf (m : TopoMaps) : List Nat :=
  (m.core_to_threads.map fun e => e.2.1).flatten

example :
    (buildTopo updUnknown (fun _ => CoreType.Unknown) [(0, 0), (2, 1), (1, 0)]).core_to_threads
      = [(0, ([0, 1], CoreType.Unknown)), (1, ([2], CoreType.Unknown))] := by decide
example :
    List.Perm (threadsOf (intel_map_threads_to_cores 4 2 fun _ => CoreType.PCore)) [0, 1, 2, 3] := by
  decide
example :
    lookupA (amd_map_threads_to_cores 4 2).thread_to_core 3 = some (1, CoreType.Unknown) := by
  decide

/-! ## Intel estimator state (`src/mapper/intel.rs`)

`IntelCoreMapper`'s pure data fields.  The `utilization : CpuUtilization`
field is a double-buffered `/proc/stat` sampler; its output — the per-core
utilization map produced by `get_core_utilization` — enters the model as an
explicit argument of `estimate_core_powers` instead. -/

/-- The pure state of `IntelCoreMapper` (`src/mapper/intel.rs`). -/
structure IntelCoreMapper where
  min_pkg_power : Option Nat := none
  max_pkg_power : Option Nat := none
  idle_pkg_power : Option Nat := none
  idle_core_power : List (Nat × Nat) := []
  core_types : List (Nat × CoreType) := []
  pcore_idle_power : Option Nat := none
  ecore_idle_power : Option Nat := none
deriving Repr, DecidableEq

/-- `IntelCoreMapper::new`. -/
def IntelCoreMapper.new : IntelCoreMapper := {}

/-- `IntelCoreMapper::update_power_bounds`. -/
def update_power_bounds (m : IntelCoreMapper) (pkg_power : Nat) : IntelCoreMapper :=
  { m with
    min_pkg_power :=
      match m.min_pkg_power with
      | none => some pkg_power
      | some mn => if pkg_power < mn then some pkg_power else some mn
    max_pkg_power :=
      match m.max_pkg_power with
      | none => some pkg_power
      | some mx => if mx < pkg_power then some pkg_power else some mx }

/-- The idle package power selected by `estimate_core_powers`:
`self.idle_pkg_power.unwrap_or_else(|| self.min_pkg_power.unwrap_or(0))`. -/
def idlePowerUsed (m : IntelCoreMapper) : Nat :=
  m.idle_pkg_power.getD (m.min_pkg_power.getD 0)

/-- The dynamic power of `estimate_core_powers`:
`pkg_power.saturating_sub(idle_power)`. -/
def dynamicPowerUsed (pkg_power idle_power : Nat) : Nat :=
  pkg_power - idle_power

/-- The core-type weight table of `estimate_core_powers`
(`3.0` / `1.0` / `2.0`), with `f64` modelled as `ℚ`. -/
def coreTypeWeight : CoreType → ℚ
  | CoreType.PCore => 3
  | CoreType.ECore => 1
  | CoreType.Unknown => 2

/-- First pass of `estimate_core_powers`: each per-core utilization whose
core id is present in `core_to_threads` is weighted by its core type. -/
def weightedUtils (core_to_threads : List (Nat × (List Nat × CoreType)))
    (core_utils : List (Nat × ℚ)) : List (Nat × ℚ) :=
  core_utils.filterMap fun p =>
    match lookupA core_to_threads p.1 with
    | some (_, ct) => some (p.1, p.2 * coreTypeWeight ct)
    | none => none

/-- `total_weighted_util`, the sum accumulated during the first pass. -/
def totalWeightedUtil (core_to_threads : List (Nat × (List Nat × CoreType)))
    (core_utils : List (Nat × ℚ)) : ℚ :=
  ((weightedUtils core_to_threads core_utils).map Prod.snd).sum

/-- The per-core idle power fallback chain of `estimate_core_powers`:
per-type baseline (P-core baseline for `Unknown`), then the stored per-core
idle value, then `idle_power / core_to_threads.len()`. -/
def idleCorePowerFor (m : IntelCoreMapper) (idle_power ncores cid : Nat)
    (ct : CoreType) : Nat :=
  (match ct with
    | CoreType.PCore => m.pcore_idle_power
    | CoreType.ECore => m.ecore_idle_power
    | CoreType.Unknown => m.pcore_idle_power).getD
    ((lookupA m.idle_core_power cid).getD (idle_power / ncores))

/-- `(dynamic_power as f64 * power_ratio) as u64` with `power_ratio =
weighted_util / total_weighted_util`: the float product is modelled exactly
in `ℚ` and the cast truncates (clamping negatives to zero, as Rust's float
to unsigned cast does). -/
def coreDynamicShare (dynamic_power : Nat) (weighted_util total : ℚ) : Nat :=
  (Int.floor ((dynamic_power : ℚ) * (weighted_util / total))).toNat

/-- `u64` addition of the per-core idle power and dynamic share. -/
def addU64 (a b : Nat) : Nat := (a + b) % U64

/-- `IntelCoreMapper::estimate_core_powers` (`src/mapper/intel.rs`).
`core_utils` is the per-core utilization map computed from `/proc/stat`
(the result of `self.utilization.get_core_utilization(thread_to_core)`,
an external sample).  Returns the updated mapper state and the per-core
power map. -/
def estimate_core_powers (m : IntelCoreMapper) (pkg_power : Nat)
    (core_to_threads : List (Nat × (List Nat × CoreType)))
    (core_utils : List (Nat × ℚ)) : IntelCoreMapper × List (Nat × Nat) :=
  let m := update_power_bounds m pkg_power
  let idle_power := idlePowerUsed m
  let dynamic_power := dynamicPowerUsed pkg_power idle_power
  let wu := weightedUtils core_to_threads core_utils
  let total := (wu.map Prod.snd).sum
  if 0 < total then
    (m, wu.filterMap fun p =>
      match lookupA core_to_threads p.1 with
      | some (_, ct) =>
          some (p.1, addU64
            (idleCorePowerFor m idle_power core_to_threads.length p.1 ct)
            (coreDynamicShare dynamic_power p.2 total))
      | none => none)
  else
    -- If all cores idle, use calibrated idle power values
    (m, core_to_threads.map fun e =>
      (e.1, idleCorePowerFor m idle_power core_to_threads.length e.1 e.2.2))

/-! ## Calibration (`src/mapper/intel.rs`, `calibrate_core_type`)

The measurement itself (pinned NOP thread, sleeps, snapshots) is external;
the two package counter values of the measurement window and the ambient
baseline power enter as arguments. -/

/-- The arithmetic of `calibrate_core_type` that derives the per-core idle
power of a core type from the measured NOP-loop power, the ambient baseline
power and the number of cores of that type. -/
def single_core_min_power (nop_power baseline_power type_count : Nat) : Nat :=
  if baseline_power < nop_power then
    (nop_power - baseline_power) / type_count
  else
    -- Fallback if measurement is inconsistent
    nop_power / type_count

/-- `IntelCoreMapper::calibrate_core_type` (`src/mapper/intel.rs`): select a
representative core of the requested type (error — `none` — when there is
none with a nonempty thread list), convert the two measured package counter
values over the 1000 ms window to power, subtract the ambient baseline when
possible, divide by the number of cores of the type, and store the result
in the per-type baseline field(s). -/
def calibrate_core_type (m : IntelCoreMapper)
    (core_to_threads : List (Nat × (List Nat × CoreType))) (core_type : CoreType)
    (initial_pkg final_pkg : Nat) (energy_unit baseline_power : Nat) :
    Option IntelCoreMapper :=
  match core_to_threads.find? (fun e => decide (e.2.2 = core_type) && !e.2.1.isEmpty) with
  | none => none
  | some _ =>
      let type_count :=
        (core_to_threads.filter fun e => decide (e.2.2 = core_type)).length
      let nop_power := calculate_power_uw initial_pkg final_pkg 1000 energy_unit
      let p := single_core_min_power nop_power baseline_power type_count
      some (match core_type with
        | CoreType.PCore => { m with pcore_idle_power := some p }
        | CoreType.ECore => { m with ecore_idle_power := some p }
        | CoreType.Unknown =>
            -- For unknown cores, set both P and E to the same value
            { m with pcore_idle_power := some p, ecore_idle_power := some p })

/-- The per-core-type idle baseline written exactly as the specification's
formula states it: `max(measured − baseline, measured) / count`. -/
def spec_idle_baseline (measured baseline count : Nat) : Nat :=
  max (measured - baseline) measured / count

example :
    (calibrate_core_type IntelCoreMapper.new [(0, ([0], CoreType.PCore))] CoreType.PCore
        0 10 0 4000000).map (fun m => m.pcore_idle_power)
      = some (some 6000000) := by decide
example : spec_idle_baseline 10000000 4000000 1 = 10000000 := by decide

/-! ## Monitor pipeline (`src/monitor.rs`) -/

/-- One `VecDeque` window update of `PowerMonitor::update_readings`:
`push_back` the sample, then `pop_front` when the length exceeds
`AVERAGING_ITERATIONS`. -/
def push_reading (readings : List Nat) (x : Nat) : List Nat :=
  let r := readings ++ [x]
  if AVERAGING_ITERATIONS < r.length then r.tail else r

/-- The moving-average windows of `PowerMonitor` (`src/monitor.rs`): the
package window and the per-physical-core windows.  The topology, display
timer and Intel mapper fields live outside this pure core. -/
structure PowerMonitor where
  power_readings : List Nat
  core_power_readings : List (Nat × List Nat)
deriving Repr, DecidableEq

/-- The window initialization of `PowerMonitor::new`: one empty window per
physical core id of the topology's `core_to_threads`, plus the empty
package window. -/
def PowerMonitor.new (core_to_threads : List (Nat × (List Nat × CoreType))) :
    PowerMonitor :=
  { power_readings := []
    core_power_readings := core_to_threads.map fun e => (e.1, []) }

/-- The `get_mut` update of one core's window inside
`PowerMonitor::update_readings`: push the sample onto the window of
`core_id` when such a window exists, leave everything else unchanged. -/
def updateCoreWindow (ws : List (Nat × List Nat)) (core_id power : Nat) :
    List (Nat × List Nat) :=
  ws.map fun w => if w.1 = core_id then (w.1, push_reading w.2 power) else w

/-- `PowerMonitor::update_readings` (`src/monitor.rs`). -/
def update_readings (mon : PowerMonitor) (package_power : Nat)
    (core_powers : List (Nat × Nat)) : PowerMonitor :=
  { power_readings := push_reading mon.power_readings package_power
    core_power_readings :=
      core_powers.foldl (fun ws p => updateCoreWindow ws p.1 p.2)
        mon.core_power_readings }

/-- `PowerMonitor::calculate_average_power`: `0.0` for an empty window,
else `total / len / POWER_SCALE` where `total` is the `u64` sum of the
window (wrapping mod `2^64` in release mode, hence the `% U64`); the `f64`
quotients are modelled as `ℚ`. -/
def calculate_average_power (readings : List Nat) : ℚ :=
  if readings.isEmpty then 0
  else ((readings.sum % U64 : Nat) : ℚ) / (readings.length : ℚ) / (POWER_SCALE : ℚ)

/-- The AMD branch of one `monitor_cpu_power` tick (`src/monitor.rs`,
the `else` arm): for every core id of the initial snapshot's per-core map
that has a raw counter value in both snapshots, compute its power with
`calculate_power_uw` over the collection interval; cores missing from
either snapshot are omitted. -/
def amd_tick_core_powers (initial_cores final_cores : List (Nat × Nat))
    (interval energy_unit : Nat) : List (Nat × Nat) :=
  initial_cores.filterMap fun p =>
    match lookupA initial_cores p.1, lookupA final_cores p.1 with
    | some s, some e => some (p.1, calculate_power_uw s e interval energy_unit)
    | _, _ => none

example :
    amd_tick_core_powers [(0, 100), (1, 200)] [(0, 150), (1, 260)] 100 0
      = [(0, (50 * 1000000) * 1000 / 100), (1, (60 * 1000000) * 1000 / 100)] := by
  decide
example :
    amd_tick_core_powers [(0, 100), (1, 200)] [(0, 150)] 100 0
      = [(0, (50 * 1000000) * 1000 / 100)] := by decide

/-! ## Derived observables used by the claim statements -/

/-- The number of physical cores of a given type, as counted by
`calibrate_core_type`. -/
def typeCount (core_to_threads : List (Nat × (List Nat × CoreType))) (ct : CoreType) : Nat :=
  (core_to_threads.filter fun e => decide (e.2.2 = ct)).length

/-- The `power_ratio` a core receives inside `estimate_core_powers`: its
weighted utilization divided by the total weighted utilization (`0` for a
core without a weighted-utilization entry). -/
def powerRatioOf (core_to_threads : List (Nat × (List Nat × CoreType)))
    (core_utils : List (Nat × ℚ)) (cid : Nat) : ℚ :=
  match lookupA (weightedUtils core_to_threads core_utils) cid with
  | some w => w / totalWeightedUtil core_to_threads core_utils
  | none => 0

/-- The idle baseline `estimate_core_powers` adds for a given core id
(looking its core type up in `core_to_threads`); `0` for an id outside the
topology. -/
def entryIdleBaseline (m : IntelCoreMapper) (idle_power : Nat)
    (core_to_threads : List (Nat × (List Nat × CoreType))) (cid : Nat) : Nat :=
  match lookupA core_to_threads cid with
  | some (_, ct) => idleCorePowerFor m idle_power core_to_threads.length cid ct
  | none => 0

/-- An optional `u64` value below `2^32` (a comfortable no-overflow bound
for power values in microwatts). -/
def OptSmall (o : Option Nat) : Prop := ∀ v, o = some v → v < 2 ^ 32

/-- All power fields of the mapper state are below `2^32`, so that the
final `u64` addition of `estimate_core_powers` cannot wrap. -/
def MapperBounded (m : IntelCoreMapper) : Prop :=
  OptSmall m.pcore_idle_power ∧ OptSmall m.ecore_idle_power ∧
  OptSmall m.idle_pkg_power ∧ OptSmall m.min_pkg_power ∧
  ∀ c v, lookupA m.idle_core_power c = some v → v < 2 ^ 32

/-- The topology invariant of the specification, relative to the intended
set of logical thread ids `tids`: the buckets hold a permutation of `tids`,
the reverse map points into the bucket that contains the thread, and every
intended thread id has a reverse-map entry. -/
structure TopoInv (m : TopoMaps) (tids : List Nat) : Prop where
  perm : List.Perm (threadsOf m) tids
  consistent : ∀ t c ty, lookupA m.thread_to_core t = some (c, ty) →
    ∃ ths tty, lookupA m.core_to_threads c = some (ths, tty) ∧ t ∈ ths
  total : ∀ t, t ∈ tids → ∃ e, lookupA m.thread_to_core t = some e

/-! ## General lemmas about the association-list model -/

theorem lookupA_eq_none_iff {β : Type _} (l : List (Nat × β)) (k : Nat) :
    lookupA l k = none ↔ k ∉ l.map Prod.fst := by
  induction l with
  | nil => simp [lookupA]
  | cons a rest ih =>
      by_cases h : a.1 = k
      · simp [lookupA, h]
      · simp [lookupA, h, ih, Ne.symm h]

theorem lookupA_eq_some_of_mem {β : Type _} {l : List (Nat × β)} {p : Nat × β}
    (hnd : (l.map Prod.fst).Nodup) (hp : p ∈ l) : lookupA l p.1 = some p.2 := by
  induction l with
  | nil => cases hp
  | cons a rest ih =>
      rcases List.mem_cons.mp hp with h | h
      · subst h; simp [lookupA]
      · have hne : a.1 ≠ p.1 := by
          intro he
          exact (List.nodup_cons.mp hnd).1 (he ▸ List.mem_map_of_mem Prod.fst h)
        simp only [lookupA, if_neg hne]
        exact ih (List.nodup_cons.mp hnd).2 h

theorem filterMap_eq_map_of_forall_some {α β : Type _} {f : α → Option β} {g : α → β} :
    ∀ {l : List α}, (∀ a ∈ l, f a = some (g a)) → l.filterMap f = l.map g
  | [], _ => rfl
  | a :: rest, h => by
      have ha := h a (List.mem_cons_self a rest)
      simp only [List.filterMap_cons, ha, List.map_cons]
      exact congrArg _ (filterMap_eq_map_of_forall_some fun b hb => h b (List.mem_cons_of_mem a hb))

theorem filterMap_congr_mem {α β : Type _} {f g : α → Option β} :
    ∀ {l : List α}, (∀ a ∈ l, f a = g a) → l.filterMap f = l.filterMap g
  | [], _ => rfl
  | a :: rest, h => by
      have ha := h a (List.mem_cons_self a rest)
      have hr := filterMap_congr_mem fun b hb => h b (List.mem_cons_of_mem a hb)
      simp only [List.filterMap_cons, ha, hr]

/-! ## C1: the power formula -/

/-- Claim C1, literal reading, is false: for 64-bit counters whose delta
times `1_000_000` overflows 64 bits, `calculate_power_uw` does not return
the exact-arithmetic value `((end - start) * 1_000_000 >> unit) * 1000 /
interval`; the multiplication wraps. -/
theorem claim_C1_counterexample :
    calculate_power_uw 0 (2 ^ 45) 1 0 ≠ (((2 ^ 45 - 0) * 1000000) >>> 0) * 1000 / 1 := by
  decide

/-- Claim C1 (corrected): for 64-bit counter values with `end ≥ start`, a
positive interval and a unit exponent below the word size, whenever neither
`(end − start) * 1_000_000` nor the shifted microjoule value times `1000`
overflows 64 bits, `calculate_power_uw` returns exactly
`((end − start) * 1_000_000 >> unit) * 1000 / interval`; when
`end < start`, `power(0xFFFFFFF0, 0x10, interval, unit)` equals the value
obtained for the delta `0x10 + 0xFFFFFFFF − 0xFFFFFFF0`; and the result is
never negative. -/
theorem claim_C1 :
    (∀ s e i u, s < U64 → e < U64 → 0 < i → u < 64 → s ≤ e →
      (e - s) * 1000000 < U64 → (((e - s) * 1000000) >>> u) * 1000 < U64 →
      calculate_power_uw s e i u = (((e - s) * 1000000) >>> u) * 1000 / i) ∧
    (∀ i u, 0 < i → u < 64 →
      calculate_power_uw 0xFFFFFFF0 0x10 i u
        = (((0x10 + 0xFFFFFFFF - 0xFFFFFFF0) * 1000000) >>> u) * 1000 / i) ∧
    (∀ s e i u, (0 : ℤ) ≤ (calculate_power_uw s e i u : ℤ)) := by
  refine ⟨?_, ?_, ?_⟩
  · intro s e i u _ _ _ hu hse h6 h7
    simp only [calculate_power_uw, POWER_SCALE, if_neg (Nat.not_lt.mpr hse),
      Nat.mod_eq_of_lt h6, Nat.mod_eq_of_lt hu, Nat.mod_eq_of_lt h7]
  · intro i u _ hu
    have hd : (0x10 + 0xFFFFFFFF + U64 - 0xFFFFFFF0) % U64 = 0x1F := by decide
    have h6 : (0x1F * POWER_SCALE) % U64 = 0x1F * POWER_SCALE := by decide
    have hs : (0x1F * POWER_SCALE) >>> u ≤ 0x1F * POWER_SCALE := by
      rw [Nat.shiftRight_eq_div_pow]; exact Nat.div_le_self _ _
    have h7 : (((0x1F * POWER_SCALE) >>> u) * 1000) % U64 = ((0x1F * POWER_SCALE) >>> u) * 1000 := by
      apply Nat.mod_eq_of_lt
      calc ((0x1F * POWER_SCALE) >>> u) * 1000 ≤ (0x1F * POWER_SCALE) * 1000 :=
            Nat.mul_le_mul_right _ hs
        _ < U64 := by decide
    simp only [calculate_power_uw, if_pos (by decide : (0x10 : Nat) < 0xFFFFFFF0), hd,
      Nat.mod_eq_of_lt hu, h6, h7]
    norm_num [POWER_SCALE]
  · intro s e i u
    exact Int.natCast_nonneg _

/-- Closed instance of claim C1's corrected statement. -/
theorem claim_C1_witness :
    calculate_power_uw 5 9 2 1 = (((9 - 5) * 1000000) >>> 1) * 1000 / 2 ∧
    calculate_power_uw 0xFFFFFFF0 0x10 100 0
      = (((0x10 + 0xFFFFFFFF - 0xFFFFFFF0) * 1000000) >>> 0) * 1000 / 100 :=
  ⟨claim_C1.1 5 9 2 1 (by decide) (by decide) (by decide) (by decide) (by decide)
      (by decide) (by decide),
    claim_C1.2.1 100 0 (by decide) (by decide)⟩

/-! ## C4: the calibration formula -/

/-- Claim C4, literal reading, is false: with measured power m = 10_000_000,
baseline b = 4_000_000 and one core of the type, the calibration stores
`(m − b) / 1 = 6_000_000`, while the claim's formula `max(m − b, m) / 1`
gives `10_000_000` (`max(m − b, m)` is just `m` once `b ≥ 0`). -/
theorem claim_C4_counterexample :
    ((calibrate_core_type IntelCoreMapper.new [(0, ([0], CoreType.PCore))] CoreType.PCore
        0 10 0 4000000).bind fun m => m.pcore_idle_power)
      ≠ some (spec_idle_baseline (calculate_power_uw 0 10 1000 0) 4000000 1) := by
  decide

/-- Claim C4 (corrected): for each calibrated core type with measured
loaded power m, ambient baseline b and n > 0 cores of the type, the stored
per-type baseline is `(m − b) / n` when `m > b` and `m / n` otherwise
(baseline subtracted only when the difference stays positive; the raw
measured power is used otherwise), where m is the power computed from the
two package counter values over the 1000 ms window. -/
theorem claim_C4 (m : IntelCoreMapper) (ctt : List (Nat × (List Nat × CoreType)))
    (ct : CoreType) (ip fp unit b : Nat) (m' : IntelCoreMapper)
    (h : calibrate_core_type m ctt ct ip fp unit b = some m') :
    0 < typeCount ctt ct ∧
    (match ct with
      | CoreType.PCore => m'.pcore_idle_power
      | CoreType.ECore => m'.ecore_idle_power
      | CoreType.Unknown => m'.pcore_idle_power)
      = some (if b < calculate_power_uw ip fp 1000 unit then
          (calculate_power_uw ip fp 1000 unit - b) / typeCount ctt ct
        else calculate_power_uw ip fp 1000 unit / typeCount ctt ct) ∧
    (ct = CoreType.Unknown →
      m'.ecore_idle_power
        = some (if b < calculate_power_uw ip fp 1000 unit then
            (calculate_power_uw ip fp 1000 unit - b) / typeCount ctt ct
          else calculate_power_uw ip fp 1000 unit / typeCount ctt ct)) := by
  unfold calibrate_core_type at h
  cases hf : ctt.find? (fun e => decide (e.2.2 = ct) && !e.2.1.isEmpty) with
  | none => rw [hf] at h; cases h
  | some a =>
      rw [hf] at h
      have hmem : a ∈ ctt := List.mem_of_find?_eq_some hf
      have hpred := List.find?_some hf
      have hct : a.2.2 = ct := by
        have := (Bool.and_eq_true _ _).mp hpred
        exact of_decide_eq_true this.1
      have hcount : 0 < typeCount ctt ct := by
        have : a ∈ ctt.filter fun e => decide (e.2.2 = ct) :=
          List.mem_filter.mpr ⟨hmem, decide_eq_true hct⟩
        exact List.length_pos.mpr (List.ne_nil_of_mem this)
      refine ⟨hcount, ?_⟩
      have h' := Option.some.inj h
      subst h'
      cases ct <;>
        simp [single_core_min_power, typeCount]

/-- Closed instance of claim C4's corrected statement. -/
theorem claim_C4_witness :
    0 < typeCount [(0, ([0], CoreType.PCore))] CoreType.PCore ∧
    ({ IntelCoreMapper.new with pcore_idle_power := some 6000000 } : IntelCoreMapper).pcore_idle_power
      = some (if 4000000 < calculate_power_uw 0 10 1000 0 then
          (calculate_power_uw 0 10 1000 0 - 4000000)
            / typeCount [(0, ([0], CoreType.PCore))] CoreType.PCore
        else calculate_power_uw 0 10 1000 0
            / typeCount [(0, ([0], CoreType.PCore))] CoreType.PCore) ∧
    (CoreType.PCore = CoreType.Unknown →
      ({ IntelCoreMapper.new with pcore_idle_power := some 6000000 } : IntelCoreMapper).ecore_idle_power
        = some (if 4000000 < calculate_power_uw 0 10 1000 0 then
            (calculate_power_uw 0 10 1000 0 - 4000000)
              / typeCount [(0, ([0], CoreType.PCore))] CoreType.PCore
          else calculate_power_uw 0 10 1000 0
              / typeCount [(0, ([0], CoreType.PCore))] CoreType.PCore)) :=
  claim_C4 IntelCoreMapper.new [(0, ([0], CoreType.PCore))] CoreType.PCore 0 10 0 4000000
    { IntelCoreMapper.new with pcore_idle_power := some 6000000 } (by decide)

/-! ## C6: idle power selection and saturating dynamic power -/

/-- Claim C6: every estimator invocation first folds the current package
reading into the running bounds, so the minimum is always populated; the
idle package power used is the calibrated value when present and otherwise
the updated running minimum (the final zero fallback being unreachable);
and the dynamic power is the saturating difference
`max(pkg − idle, 0)`, hence never negative. -/
theorem claim_C6 (m : IntelCoreMapper) (pkg : Nat)
    (ctt : List (Nat × (List Nat × CoreType))) (cu : List (Nat × ℚ)) :
    (estimate_core_powers m pkg ctt cu).1 = update_power_bounds m pkg ∧
    (update_power_bounds m pkg).min_pkg_power
      = some (match m.min_pkg_power with
              | none => pkg
              | some mn => min pkg mn) ∧
    idlePowerUsed (update_power_bounds m pkg)
      = (match m.idle_pkg_power with
         | some c => c
         | none =>
             match m.min_pkg_power with
             | none => pkg
             | some mn => min pkg mn) ∧
    ((dynamicPowerUsed pkg (idlePowerUsed (update_power_bounds m pkg)) : ℤ)
      = max ((pkg : ℤ) - (idlePowerUsed (update_power_bounds m pkg) : ℤ)) 0) := by
  refine ⟨?_, ?_, ?_, ?_⟩
  · unfold estimate_core_powers
    by_cases h : (0 : ℚ) < ((weightedUtils ctt cu).map Prod.snd).sum <;> simp [h]
  · cases h : m.min_pkg_power with
    | none => simp [update_power_bounds, h]
    | some mn =>
        simp only [update_power_bounds, h]
        split_ifs with hlt <;> (congr 1; omega)
  · cases h1 : m.idle_pkg_power with
    | some c => simp [idlePowerUsed, update_power_bounds, h1]
    | none =>
        cases h2 : m.min_pkg_power with
        | none => simp [idlePowerUsed, update_power_bounds, h1, h2]
        | some mn =>
            simp only [idlePowerUsed, update_power_bounds, h1, h2]
            split_ifs with hlt <;> simp <;> omega
  · unfold dynamicPowerUsed
    omega

/-! ## C9 and C10: moving-average windows -/

theorem push_reading_eq_drop (w : List Nat) (x : Nat) (h : w.length ≤ AVERAGING_ITERATIONS) :
    push_reading w x = (w ++ [x]).drop (w.length + 1 - AVERAGING_ITERATIONS) := by
  unfold push_reading
  by_cases hl : AVERAGING_ITERATIONS < (w ++ [x]).length
  · rw [if_pos hl]
    have : w.length + 1 - AVERAGING_ITERATIONS = 1 := by
      simp only [List.length_append, List.length_singleton] at hl
      omega
    rw [this, List.drop_one]
  · rw [if_neg hl]
    have : w.length + 1 - AVERAGING_ITERATIONS = 0 := by
      simp only [List.length_append, List.length_singleton] at hl
      omega
    rw [this, List.drop_zero]

theorem foldl_push_reading (xs : List Nat) :
    ∀ w : List Nat, w.length ≤ AVERAGING_ITERATIONS →
      xs.foldl push_reading w
          = (w ++ xs).drop (w.length + xs.length - AVERAGING_ITERATIONS) ∧
        (xs.foldl push_reading w).length ≤ AVERAGING_ITERATIONS := by
  induction xs with
  | nil =>
      intro w h
      simp only [List.foldl_nil, List.append_nil, List.length_nil, Nat.add_zero]
      rw [Nat.sub_eq_zero_of_le h, List.drop_zero]
      exact ⟨rfl, h⟩
  | cons x xs ih =>
      intro w h
      have hpush : push_reading w x = (w ++ [x]).drop (w.length + 1 - AVERAGING_ITERATIONS) :=
        push_reading_eq_drop w x h
      have hlen : (push_reading w x).length
          = w.length + 1 - (w.length + 1 - AVERAGING_ITERATIONS) := by
        rw [hpush, List.length_drop, List.length_append, List.length_singleton]
      have hlen' : (push_reading w x).length ≤ AVERAGING_ITERATIONS := by omega
      obtain ⟨ih1, ih2⟩ := ih (push_reading w x) hlen'
      refine ⟨?_, by rw [List.foldl_cons]; exact ih2⟩
      rw [List.foldl_cons, ih1, hlen, hpush]
      rw [← List.drop_append_of_le_length
        (by rw [List.length_append, List.length_singleton]; omega)]
      rw [List.drop_drop, List.append_assoc, List.singleton_append]
      congr 1
      simp only [List.length_cons]
      omega

theorem update_readings_single_core (xs : List Nat) (cid : Nat) :
    ∀ w w' : List Nat,
      xs.foldl (fun mon x => update_readings mon x [(cid, x)])
          { power_readings := w, core_power_readings := [(cid, w')] }
        = { power_readings := xs.foldl push_reading w
            core_power_readings := [(cid, xs.foldl push_reading w')] } := by
  induction xs with
  | nil => intro w w'; rfl
  | cons x xs ih =>
      intro w w'
      rw [List.foldl_cons]
      have hstep : update_readings
          { power_readings := w, core_power_readings := [(cid, w')] } x [(cid, x)]
          = { power_readings := push_reading w x
              core_power_readings := [(cid, push_reading w' x)] } := by
        simp [update_readings, updateCoreWindow]
      rw [hstep, ih, List.foldl_cons, List.foldl_cons]

/-- Claim C9, literal reading, is false on the averaging half: the window
sum is a `u64` that wraps mod `2^64` in release mode, so ten samples of
`2^63` average to `0`, not to `(10 * 2^63) / 10 / 1_000_000`. -/
theorem claim_C9_counterexample :
    calculate_average_power (List.replicate 10 (2 ^ 63))
      ≠ (((List.replicate 10 (2 ^ 63)).sum : ℚ)
          / ((List.replicate 10 (2 ^ 63)).length : ℚ)) / (POWER_SCALE : ℚ) := by
  have hs : (List.replicate 10 ((2 : Nat) ^ 63)).sum = 10 * 2 ^ 63 := by decide
  have hmod : (10 * 2 ^ 63) % U64 = 0 := by decide
  have hne : ¬ (List.replicate 10 ((2 : Nat) ^ 63)).isEmpty = true := by decide
  unfold calculate_average_power
  rw [if_neg hne, hs, hmod, List.length_replicate]
  norm_num [POWER_SCALE]

/-- Claim C9 (corrected): pushing `AVERAGING_ITERATIONS + 1 = 11` samples
through `update_readings` into empty windows leaves both the package window
and the core's window holding exactly the last 10 samples in insertion
order; and whenever the `u64` window sum does not overflow (always the case
for realistic microwatt readings), the reported average of a non-empty
window is its sum divided by its length divided by
`POWER_SCALE = 1_000_000` — with an overflowing sum the `u64` total wraps
mod `2^64` first. -/
theorem claim_C9 (xs : List Nat) (cid : Nat) (h : xs.length = AVERAGING_ITERATIONS + 1)
    (hof : xs.tail.sum < U64) :
    (xs.foldl (fun mon x => update_readings mon x [(cid, x)])
        { power_readings := [], core_power_readings := [(cid, [])] }).power_readings
      = xs.tail ∧
    (xs.foldl (fun mon x => update_readings mon x [(cid, x)])
        { power_readings := [], core_power_readings := [(cid, [])] }).core_power_readings
      = [(cid, xs.tail)] ∧
    xs.tail.length = AVERAGING_ITERATIONS ∧
    calculate_average_power xs.tail
      = ((xs.tail.sum : ℚ) / (AVERAGING_ITERATIONS : ℚ)) / (POWER_SCALE : ℚ) ∧
    (∀ w : List Nat, w ≠ [] → w.sum < U64 →
      calculate_average_power w = ((w.sum : ℚ) / (w.length : ℚ)) / (POWER_SCALE : ℚ)) := by
  have hfold : xs.foldl push_reading [] = xs.tail := by
    obtain ⟨h1, _⟩ := foldl_push_reading xs [] (by simp [AVERAGING_ITERATIONS])
    rw [h1]
    simp only [List.nil_append, List.length_nil, Nat.zero_add, h]
    rw [(by rfl : AVERAGING_ITERATIONS + 1 - AVERAGING_ITERATIONS = 1), List.drop_one]
  have htail : xs.tail.length = AVERAGING_ITERATIONS := by
    rw [List.length_tail, h, Nat.add_sub_cancel]
  have havg : ∀ w : List Nat, w ≠ [] → w.sum < U64 →
      calculate_average_power w = ((w.sum : ℚ) / (w.length : ℚ)) / (POWER_SCALE : ℚ) := by
    intro w hw hwof
    unfold calculate_average_power
    rw [if_neg (by simpa [List.isEmpty_iff] using hw), Nat.mod_eq_of_lt hwof]
  refine ⟨?_, ?_, htail, ?_, havg⟩
  · rw [update_readings_single_core, hfold]
  · rw [update_readings_single_core, hfold]
  · rw [havg xs.tail (by intro he; rw [he] at htail; simp [AVERAGING_ITERATIONS] at htail) hof,
      htail]

/-- Closed instance of claim C9. -/
theorem claim_C9_witness :
    ([1, 2, 3, 4, 5, 6, 7, 8, 9, 10, 11].foldl
        (fun mon x => update_readings mon x [(0, x)])
        { power_readings := [], core_power_readings := [(0, [])] }).power_readings
      = [1, 2, 3, 4, 5, 6, 7, 8, 9, 10, 11].tail ∧
    calculate_average_power ([1, 2, 3, 4, 5, 6, 7, 8, 9, 10, 11] : List Nat).tail
      = ((([1, 2, 3, 4, 5, 6, 7, 8, 9, 10, 11] : List Nat).tail.sum : ℚ)
          / (AVERAGING_ITERATIONS : ℚ)) / (POWER_SCALE : ℚ) :=
  ⟨(claim_C9 [1, 2, 3, 4, 5, 6, 7, 8, 9, 10, 11] 0 (by decide) (by decide)).1,
    (claim_C9 [1, 2, 3, 4, 5, 6, 7, 8, 9, 10, 11] 0 (by decide) (by decide)).2.2.2.1⟩

theorem updateCoreWindow_keys (ws : List (Nat × List Nat)) (cid p : Nat) :
    (updateCoreWindow ws cid p).map Prod.fst = ws.map Prod.fst := by
  unfold updateCoreWindow
  rw [List.map_map]
  apply List.map_congr_left
  intro w _
  by_cases h : w.1 = cid <;> simp [h]

theorem update_readings_keys (cps : List (Nat × Nat)) :
    ∀ ws : List (Nat × List Nat),
      (cps.foldl (fun ws p => updateCoreWindow ws p.1 p.2) ws).map Prod.fst
        = ws.map Prod.fst := by
  induction cps with
  | nil => intro ws; rfl
  | cons p rest ih =>
      intro ws
      rw [List.foldl_cons, ih, updateCoreWindow_keys]

/-- Claim C10: the per-core window key set is fixed at construction to the
physical-core ids of the topology, is preserved by every `update_readings`
call, and a sample keyed by a core id without a window is silently
discarded (no window is ever created after construction). -/
theorem claim_C10 :
    (∀ ctt : List (Nat × (List Nat × CoreType)),
      (PowerMonitor.new ctt).core_power_readings.map Prod.fst = ctt.map Prod.fst ∧
      ∀ p ∈ (PowerMonitor.new ctt).core_power_readings, p.2 = ([] : List Nat)) ∧
    (∀ (mon : PowerMonitor) (pkg : Nat) (cps : List (Nat × Nat)),
      (update_readings mon pkg cps).core_power_readings.map Prod.fst
        = mon.core_power_readings.map Prod.fst) ∧
    (∀ (mon : PowerMonitor) (pkg : Nat) (cps : List (Nat × Nat)) (cid : Nat),
      cid ∉ mon.core_power_readings.map Prod.fst →
      lookupA (update_readings mon pkg cps).core_power_readings cid = none) := by
  have hkeys : ∀ (mon : PowerMonitor) (pkg : Nat) (cps : List (Nat × Nat)),
      (update_readings mon pkg cps).core_power_readings.map Prod.fst
        = mon.core_power_readings.map Prod.fst := by
    intro mon pkg cps
    unfold update_readings
    exact update_readings_keys cps mon.core_power_readings
  refine ⟨?_, hkeys, ?_⟩
  · intro ctt
    constructor
    · unfold PowerMonitor.new
      rw [List.map_map]
      rfl
    · intro p hp
      unfold PowerMonitor.new at hp
      obtain ⟨e, _, he⟩ := List.mem_map.mp hp
      rw [← he]
  · intro mon pkg cps cid hcid
    rw [lookupA_eq_none_iff, hkeys]
    exact hcid

/-- Closed instance of claim C10: a sample for an unmapped core id creates
no window. -/
theorem claim_C10_witness :
    lookupA (update_readings
        { power_readings := [], core_power_readings := [(0, [])] } 5
        [(3, 7)]).core_power_readings 3 = none :=
  claim_C10.2.2 { power_readings := [], core_power_readings := [(0, [])] } 5
    [(3, 7)] 3 (by decide)

/-! ## C8: the AMD per-core tick -/

theorem amd_tick_key_mem {initial_cores final_cores : List (Nat × Nat)} {interval unit : Nat}
    {q : Nat × Nat}
    (hq : q ∈ amd_tick_core_powers initial_cores final_cores interval unit) :
    q.1 ∈ initial_cores.map Prod.fst := by
  obtain ⟨p, hp, hpq⟩ := List.mem_filterMap.mp hq
  have hq1 : q.1 = p.1 := by
    cases h1 : lookupA initial_cores p.1 <;> cases h2 : lookupA final_cores p.1 <;>
        rw [h1, h2] at hpq
    · cases hpq
    · cases hpq
    · cases hpq
    · cases hpq; rfl
  rw [hq1]
  exact List.mem_map_of_mem Prod.fst hp

theorem amd_tick_cons {x : Nat × Nat} {rest final_cores : List (Nat × Nat)}
    {interval unit : Nat} (hx : x.1 ∉ rest.map Prod.fst) :
    amd_tick_core_powers (x :: rest) final_cores interval unit
      = match lookupA final_cores x.1 with
        | some e => (x.1, calculate_power_uw x.2 e interval unit)
            :: amd_tick_core_powers rest final_cores interval unit
        | none => amd_tick_core_powers rest final_cores interval unit := by
  unfold amd_tick_core_powers
  rw [List.filterMap_cons]
  have hhead : lookupA (x :: rest) x.1 = some x.2 := by
    cases x; simp [lookupA]
  have htail : rest.filterMap (fun p =>
      match lookupA (x :: rest) p.1, lookupA final_cores p.1 with
      | some s, some e => some (p.1, calculate_power_uw s e interval unit)
      | _, _ => none)
      = rest.filterMap (fun p =>
      match lookupA rest p.1, lookupA final_cores p.1 with
      | some s, some e => some (p.1, calculate_power_uw s e interval unit)
      | _, _ => none) := by
    apply filterMap_congr_mem
    intro p hp
    have hne : x.1 ≠ p.1 := by
      intro he
      exact hx (he ▸ List.mem_map_of_mem Prod.fst hp)
    cases x; simp only [lookupA, if_neg hne]
  rw [hhead, htail]
  cases lookupA final_cores x.1 <;> rfl

/-- Claim C8: on an AMD tick, the per-core power map contains exactly the
cores with a raw counter value in both snapshots, each mapped to
`calculate_power_uw` of its two counter values over the interval; a core
missing from either snapshot is omitted (the tick is a total function and
neither errors nor terminates the loop). -/
theorem claim_C8 (initial_cores final_cores : List (Nat × Nat)) (interval unit : Nat)
    (hnd : (initial_cores.map Prod.fst).Nodup) (cid : Nat) :
    lookupA (amd_tick_core_powers initial_cores final_cores interval unit) cid
      = match lookupA initial_cores cid, lookupA final_cores cid with
        | some s, some e => some (calculate_power_uw s e interval unit)
        | _, _ => none := by
  induction initial_cores with
  | nil =>
      simp only [amd_tick_core_powers, List.filterMap_nil, lookupA]
  | cons x rest ih =>
      obtain ⟨hx, hnd'⟩ := List.nodup_cons.mp hnd
      rw [amd_tick_cons hx]
      by_cases hc : x.1 = cid
      · subst hc
        have hrest : lookupA (amd_tick_core_powers rest final_cores interval unit) x.1 = none := by
          rw [lookupA_eq_none_iff]
          intro hmem
          obtain ⟨q, hq, hq1⟩ := List.mem_map.mp hmem
          exact hx (hq1 ▸ amd_tick_key_mem hq)
        have hhead : lookupA (x :: rest) x.1 = some x.2 := by
          cases x; simp [lookupA]
        rw [hhead]
        cases hf : lookupA final_cores x.1
        · rw [hrest]
        · simp [lookupA]
      · have hhead : lookupA (x :: rest) cid = lookupA rest cid := by
          cases x; simp only [lookupA, if_neg hc]
        rw [hhead]
        cases hf : lookupA final_cores x.1
        · exact ih hnd'
        · simp only [lookupA, if_neg hc]
          exact ih hnd'

/-- Closed instance of claim C8: core 1 is present in the initial snapshot
but missing from the final one, so it is omitted from the tick's map. -/
theorem claim_C8_witness :
    lookupA (amd_tick_core_powers [(0, 100), (1, 200)] [(0, 150)] 100 0) 1
      = match lookupA [(0, 100), (1, 200)] 1, lookupA [(0, 150)] 1 with
        | some s, some e => some (calculate_power_uw s e 100 0)
        | _, _ => none :=
  claim_C8 [(0, 100), (1, 200)] [(0, 150)] 100 0 (by decide) 1

/-! ## C3: the fully idle estimator branch -/

theorem weightedUtils_zero {ctt : List (Nat × (List Nat × CoreType))} {cu : List (Nat × ℚ)}
    (h0 : ∀ q ∈ cu, q.2 = 0) : ∀ p ∈ weightedUtils ctt cu, p.2 = 0 := by
  intro p hp
  obtain ⟨q, hq, hqp⟩ := List.mem_filterMap.mp hp
  cases hl : lookupA ctt q.1 with
  | none => rw [hl] at hqp; cases hqp
  | some v =>
      rw [hl] at hqp
      cases hqp
      have := h0 q hq
      simp [this]

theorem totalWeightedUtil_zero {ctt : List (Nat × (List Nat × CoreType))} {cu : List (Nat × ℚ)}
    (h0 : ∀ q ∈ cu, q.2 = 0) : totalWeightedUtil ctt cu = 0 := by
  unfold totalWeightedUtil
  apply List.sum_eq_zero
  intro x hx
  obtain ⟨p, hp, hpx⟩ := List.mem_map.mp hx
  rw [← hpx]
  exact weightedUtils_zero h0 p hp

theorem estimate_core_powers_all_idle (m : IntelCoreMapper) (pkg : Nat)
    (ctt : List (Nat × (List Nat × CoreType))) (cu : List (Nat × ℚ))
    (h0 : ∀ q ∈ cu, q.2 = 0) :
    (estimate_core_powers m pkg ctt cu).2
      = ctt.map fun e =>
          (e.1, idleCorePowerFor (update_power_bounds m pkg)
            (idlePowerUsed (update_power_bounds m pkg)) ctt.length e.1 e.2.2) := by
  have htot : ((weightedUtils ctt cu).map Prod.snd).sum = 0 := totalWeightedUtil_zero h0
  simp [estimate_core_powers, htot]

/-- Claim C3: when every per-core utilization is exactly 0 the total
weighted utilization is 0 and the estimator assigns every physical core its
core-type idle baseline (P-core baseline for `PCore` and `Unknown`, E-core
baseline for `ECore`), falling back to the stored per-core idle value and
then to `idle package power / core count`; the per-core sum need not equal
the package power (final conjunct exhibits such an instance). -/
theorem claim_C3 (m : IntelCoreMapper) (pkg : Nat)
    (ctt : List (Nat × (List Nat × CoreType))) (cu : List (Nat × ℚ))
    (h0 : ∀ q ∈ cu, q.2 = 0) :
    ((estimate_core_powers m pkg ctt cu).2
      = ctt.map fun e =>
          (e.1, idleCorePowerFor (update_power_bounds m pkg)
            (idlePowerUsed (update_power_bounds m pkg)) ctt.length e.1 e.2.2)) ∧
    (∀ (m' : IntelCoreMapper) (idle n cid : Nat),
      idleCorePowerFor m' idle n cid CoreType.PCore
        = m'.pcore_idle_power.getD ((lookupA m'.idle_core_power cid).getD (idle / n)) ∧
      idleCorePowerFor m' idle n cid CoreType.ECore
        = m'.ecore_idle_power.getD ((lookupA m'.idle_core_power cid).getD (idle / n)) ∧
      idleCorePowerFor m' idle n cid CoreType.Unknown
        = m'.pcore_idle_power.getD ((lookupA m'.idle_core_power cid).getD (idle / n))) ∧
    (((estimate_core_powers { IntelCoreMapper.new with pcore_idle_power := some 5 } 100
        [(0, ([0], CoreType.PCore))] [(0, 0)]).2.map Prod.snd).sum ≠ 100) := by
  refine ⟨estimate_core_powers_all_idle m pkg ctt cu h0, ?_, ?_⟩
  · intro m' idle n cid
    exact ⟨rfl, rfl, rfl⟩
  · rw [estimate_core_powers_all_idle _ _ _ _
      (fun q hq => by rcases List.mem_singleton.mp hq with rfl; rfl)]
    decide

/-- Closed instance of claim C3: one idle P-core without calibration data
is assigned the fallback `idle package power / core count`. -/
theorem claim_C3_witness :
    (estimate_core_powers IntelCoreMapper.new 100 [(0, ([0], CoreType.PCore))] [(0, 0)]).2
      = ([(0, ([0], CoreType.PCore))] : List (Nat × (List Nat × CoreType))).map (fun e =>
          (e.1, idleCorePowerFor (update_power_bounds IntelCoreMapper.new 100)
            (idlePowerUsed (update_power_bounds IntelCoreMapper.new 100))
            ([(0, ([0], CoreType.PCore))] : List (Nat × (List Nat × CoreType))).length
            e.1 e.2.2)) :=
  (claim_C3 IntelCoreMapper.new 100 [(0, ([0], CoreType.PCore))] [(0, 0)]
    (fun q hq => by rcases List.mem_singleton.mp hq with rfl; rfl)).1

/-! ## C5: core-type weighting -/

theorem lookupA_weightedUtils {ctt : List (Nat × (List Nat × CoreType))}
    {cu : List (Nat × ℚ)} {cid : Nat} {u : ℚ} {ths : List Nat} {ct : CoreType}
    (hnd : (cu.map Prod.fst).Nodup) (hmem : (cid, u) ∈ cu)
    (hl : lookupA ctt cid = some (ths, ct)) :
    lookupA (weightedUtils ctt cu) cid = some (u * coreTypeWeight ct) := by
  induction cu with
  | nil => cases hmem
  | cons q rest ih =>
      obtain ⟨hq, hnd'⟩ := List.nodup_cons.mp hnd
      rcases List.mem_cons.mp hmem with h | h
      · have h1 : q.1 = cid := by rw [← h]
        have h2 : q.2 = u := by rw [← h]
        unfold weightedUtils
        rw [List.filterMap_cons, h1, hl]
        simp [lookupA, h2]
      · have hne : q.1 ≠ cid := by
          intro he
          exact hq (he ▸ List.mem_map_of_mem Prod.fst h)
        have ihr := ih hnd' h
        unfold weightedUtils
        rw [List.filterMap_cons]
        cases hql : lookupA ctt q.1 with
        | none => exact ihr
        | some v =>
            simp only [lookupA, if_neg hne]
            exact ihr

/-- Claim C5: `estimate_core_powers` weights utilization by core type with
factors 3 (performance), 2 (unknown) and 1 (efficiency); a core's share of
dynamic power is its weighted utilization over the total; hence at equal
utilization a performance core's ratio — and so its dynamic-power share —
is exactly three times an efficiency core's. -/
theorem claim_C5 (ctt : List (Nat × (List Nat × CoreType))) (cu : List (Nat × ℚ))
    (cp ce : Nat) (u : ℚ) (thsp thse : List Nat)
    (hnd : (cu.map Prod.fst).Nodup)
    (hcp : (cp, u) ∈ cu) (hce : (ce, u) ∈ cu)
    (hp : lookupA ctt cp = some (thsp, CoreType.PCore))
    (he : lookupA ctt ce = some (thse, CoreType.ECore)) :
    coreTypeWeight CoreType.PCore = 3 ∧ coreTypeWeight CoreType.ECore = 1 ∧
    coreTypeWeight CoreType.Unknown = 2 ∧
    powerRatioOf ctt cu cp = (u * 3) / totalWeightedUtil ctt cu ∧
    powerRatioOf ctt cu ce = (u * 1) / totalWeightedUtil ctt cu ∧
    powerRatioOf ctt cu cp = 3 * powerRatioOf ctt cu ce ∧
    (∀ dynamic_power : ℚ,
      dynamic_power * powerRatioOf ctt cu cp
        = 3 * (dynamic_power * powerRatioOf ctt cu ce)) := by
  have hrp : powerRatioOf ctt cu cp = (u * 3) / totalWeightedUtil ctt cu := by
    unfold powerRatioOf
    rw [lookupA_weightedUtils hnd hcp hp]
    rfl
  have hre : powerRatioOf ctt cu ce = (u * 1) / totalWeightedUtil ctt cu := by
    unfold powerRatioOf
    rw [lookupA_weightedUtils hnd hce he]
    rfl
  have h3 : powerRatioOf ctt cu cp = 3 * powerRatioOf ctt cu ce := by
    rw [hrp, hre]; ring
  exact ⟨rfl, rfl, rfl, hrp, hre, h3, fun d => by rw [h3]; ring⟩

/-- Closed instance of claim C5: with both cores at utilization 1/2, the
performance core's ratio is three times the efficiency core's. -/
theorem claim_C5_witness :
    powerRatioOf [(0, ([0], CoreType.PCore)), (1, ([1], CoreType.ECore))]
        [(0, (1 : ℚ) / 2), (1, (1 : ℚ) / 2)] 0
      = 3 * powerRatioOf [(0, ([0], CoreType.PCore)), (1, ([1], CoreType.ECore))]
        [(0, (1 : ℚ) / 2), (1, (1 : ℚ) / 2)] 1 :=
  (claim_C5 [(0, ([0], CoreType.PCore)), (1, ([1], CoreType.ECore))]
      [(0, (1 : ℚ) / 2), (1, (1 : ℚ) / 2)] 0 1 ((1 : ℚ) / 2) [0] [1]
      (by decide)
      (List.mem_cons_self _ _)
      (List.mem_cons_of_mem _ (List.mem_cons_self _ _))
      rfl rfl).2.2.2.2.2.1

/-! ## C2: conservation of dynamic power -/

theorem coreTypeWeight_nonneg (ct : CoreType) : 0 ≤ coreTypeWeight ct := by
  cases ct <;> norm_num [coreTypeWeight]

theorem mem_weightedUtils {ctt : List (Nat × (List Nat × CoreType))}
    {cu : List (Nat × ℚ)} {p : Nat × ℚ} (hp : p ∈ weightedUtils ctt cu) :
    ∃ q ∈ cu, q.1 = p.1 ∧
      ∃ ths ct, lookupA ctt p.1 = some (ths, ct) ∧ p.2 = q.2 * coreTypeWeight ct := by
  obtain ⟨q, hq, hqp⟩ := List.mem_filterMap.mp hp
  cases hl : lookupA ctt q.1 with
  | none => rw [hl] at hqp; cases hqp
  | some v =>
      rw [hl] at hqp
      obtain ⟨ths, ct⟩ := v
      cases hqp
      exact ⟨q, hq, rfl, ths, ct, hl, rfl⟩

theorem weightedUtils_nonneg {ctt : List (Nat × (List Nat × CoreType))}
    {cu : List (Nat × ℚ)} (hutil : ∀ q ∈ cu, 0 ≤ q.2) :
    ∀ p ∈ weightedUtils ctt cu, 0 ≤ p.2 := by
  intro p hp
  obtain ⟨q, hq, _, _, ct, _, hval⟩ := mem_weightedUtils hp
  rw [hval]
  exact mul_nonneg (hutil q hq) (coreTypeWeight_nonneg ct)

theorem mem_le_sum_of_nonneg : ∀ {l : List ℚ}, (∀ y ∈ l, 0 ≤ y) → ∀ x ∈ l, x ≤ l.sum := by
  intro l
  induction l with
  | nil => intro _ x hx; cases hx
  | cons a rest ih =>
      intro h x hx
      rw [List.sum_cons]
      rcases List.mem_cons.mp hx with he | hx
      · have hr : 0 ≤ rest.sum :=
          List.sum_nonneg fun y hy => h y (List.mem_cons_of_mem a hy)
        rw [he]
        linarith
      · have ha : 0 ≤ a := h a (List.mem_cons_self a rest)
        have := ih (fun y hy => h y (List.mem_cons_of_mem a hy)) x hx
        linarith

theorem coreDynamicShare_cast_eq {d : Nat} {w T : ℚ} (hw : 0 ≤ w) (hT : 0 < T) :
    ((coreDynamicShare d w T : Nat) : ℚ) = ((Int.floor ((d : ℚ) * (w / T)) : ℤ) : ℚ) := by
  unfold coreDynamicShare
  have hx : (0 : ℚ) ≤ (d : ℚ) * (w / T) :=
    mul_nonneg (Nat.cast_nonneg d) (div_nonneg hw hT.le)
  have := Int.toNat_of_nonneg (Int.floor_nonneg.mpr hx)
  exact_mod_cast congrArg (fun z : ℤ => (z : ℚ)) this

theorem coreDynamicShare_le_ratio {d : Nat} {w T : ℚ} (hw : 0 ≤ w) (hT : 0 < T) :
    ((coreDynamicShare d w T : Nat) : ℚ) ≤ (d : ℚ) * (w / T) := by
  rw [coreDynamicShare_cast_eq hw hT]
  exact Int.floor_le _

theorem ratio_sub_one_lt_coreDynamicShare {d : Nat} {w T : ℚ} (hw : 0 ≤ w) (hT : 0 < T) :
    (d : ℚ) * (w / T) - 1 < ((coreDynamicShare d w T : Nat) : ℚ) := by
  rw [coreDynamicShare_cast_eq hw hT]
  exact Int.sub_one_lt_floor _

theorem coreDynamicShare_le_dynamic {d : Nat} {w T : ℚ} (hw : 0 ≤ w) (hwT : w ≤ T)
    (hT : 0 < T) : coreDynamicShare d w T ≤ d := by
  have hx : (d : ℚ) * (w / T) ≤ (d : ℚ) := by
    apply mul_le_of_le_one_right (Nat.cast_nonneg d)
    exact (div_le_one hT).mpr hwT
  have := (coreDynamicShare_le_ratio hw hT).trans hx
  exact_mod_cast this

theorem update_power_bounds_fields (m : IntelCoreMapper) (pkg : Nat) :
    (update_power_bounds m pkg).pcore_idle_power = m.pcore_idle_power ∧
    (update_power_bounds m pkg).ecore_idle_power = m.ecore_idle_power ∧
    (update_power_bounds m pkg).idle_pkg_power = m.idle_pkg_power ∧
    (update_power_bounds m pkg).idle_core_power = m.idle_core_power :=
  ⟨rfl, rfl, rfl, rfl⟩

theorem idlePowerUsed_lt {m : IntelCoreMapper} {pkg : Nat}
    (hb : MapperBounded m) (hpkg : pkg < 2 ^ 32) :
    idlePowerUsed (update_power_bounds m pkg) < 2 ^ 32 := by
  obtain ⟨_, _, hidle, hmin, _⟩ := hb
  unfold idlePowerUsed update_power_bounds
  cases h1 : m.idle_pkg_power with
  | some c => exact hidle c h1
  | none =>
      cases h2 : m.min_pkg_power with
      | none => simpa [h1, h2] using hpkg
      | some mn =>
          have := hmin mn h2
          simp only [h1, h2]
          split_ifs <;> simpa

theorem idleCorePowerFor_lt {m : IntelCoreMapper} {pkg : Nat} {idle n cid : Nat}
    (ct : CoreType) (hb : MapperBounded m) (hidle : idle < 2 ^ 32) :
    idleCorePowerFor (update_power_bounds m pkg) idle n cid ct < 2 ^ 32 := by
  obtain ⟨hpc, hec, _, _, hstore⟩ := hb
  have hinner : (lookupA (update_power_bounds m pkg).idle_core_power cid).getD (idle / n)
      < 2 ^ 32 := by
    cases hl : lookupA (update_power_bounds m pkg).idle_core_power cid with
    | some v =>
        exact hstore cid v ((update_power_bounds_fields m pkg).2.2.2 ▸ hl)
    | none => exact lt_of_le_of_lt (Nat.div_le_self idle n) hidle
  unfold idleCorePowerFor
  cases ct
  · cases hp : (update_power_bounds m pkg).pcore_idle_power with
    | some v => exact hpc v ((update_power_bounds_fields m pkg).1 ▸ hp)
    | none => simpa [hp] using hinner
  · cases hp : (update_power_bounds m pkg).ecore_idle_power with
    | some v => exact hec v ((update_power_bounds_fields m pkg).2.1 ▸ hp)
    | none => simpa [hp] using hinner
  · cases hp : (update_power_bounds m pkg).pcore_idle_power with
    | some v => exact hpc v ((update_power_bounds_fields m pkg).1 ▸ hp)
    | none => simpa [hp] using hinner

theorem estimate_core_powers_busy (m : IntelCoreMapper) (pkg : Nat)
    (ctt : List (Nat × (List Nat × CoreType))) (cu : List (Nat × ℚ))
    (hT : 0 < totalWeightedUtil ctt cu) :
    (estimate_core_powers m pkg ctt cu).2
      = (weightedUtils ctt cu).filterMap (fun p =>
          match lookupA ctt p.1 with
          | some (_, ct) => some (p.1, addU64
              (idleCorePowerFor (update_power_bounds m pkg)
                (idlePowerUsed (update_power_bounds m pkg)) ctt.length p.1 ct)
              (coreDynamicShare
                (dynamicPowerUsed pkg (idlePowerUsed (update_power_bounds m pkg)))
                p.2 (((weightedUtils ctt cu).map Prod.snd).sum)))
          | none => none) := by
  unfold totalWeightedUtil at hT
  simp only [estimate_core_powers]
  rw [if_pos hT]

theorem entryIdleBaseline_lt {m : IntelCoreMapper} {pkg : Nat} {idle cid : Nat}
    {ctt : List (Nat × (List Nat × CoreType))}
    (hb : MapperBounded m) (hidle : idle < 2 ^ 32) :
    entryIdleBaseline (update_power_bounds m pkg) idle ctt cid < 2 ^ 32 := by
  unfold entryIdleBaseline
  cases h : lookupA ctt cid with
  | none => norm_num
  | some v => exact idleCorePowerFor_lt v.2 hb hidle

theorem list_sum_map_sub_one {α : Type _} (f : α → ℚ) :
    ∀ l : List α, (l.map fun a => f a - 1).sum = (l.map f).sum - l.length
  | [] => by simp
  | a :: rest => by
      simp only [List.map_cons, List.sum_cons, list_sum_map_sub_one f rest, List.length_cons]
      push_cast
      ring

/-- Claim C2: when the total weighted utilization is positive, the sum over
the assigned cores of (estimated power − that core's idle baseline) — the
dynamic-power shares — equals the total dynamic power up to the rounding
lost by truncating each share to an integer microwatt value: the sum never
exceeds the dynamic power and falls short of it by less than one microwatt
per assigned core. -/
theorem claim_C2 (m : IntelCoreMapper) (pkg : Nat)
    (ctt : List (Nat × (List Nat × CoreType))) (cu : List (Nat × ℚ))
    (hutil : ∀ q ∈ cu, 0 ≤ q.2)
    (hT : 0 < totalWeightedUtil ctt cu)
    (hpkg : pkg < 2 ^ 32) (hb : MapperBounded m) :
    (dynamicPowerUsed pkg (idlePowerUsed (update_power_bounds m pkg)) : ℚ)
        - ((estimate_core_powers m pkg ctt cu).2.length : ℚ)
      < ((estimate_core_powers m pkg ctt cu).2.map (fun e =>
          (e.2 : ℚ) - (entryIdleBaseline (update_power_bounds m pkg)
            (idlePowerUsed (update_power_bounds m pkg)) ctt e.1 : ℚ))).sum ∧
    ((estimate_core_powers m pkg ctt cu).2.map (fun e =>
          (e.2 : ℚ) - (entryIdleBaseline (update_power_bounds m pkg)
            (idlePowerUsed (update_power_bounds m pkg)) ctt e.1 : ℚ))).sum
      ≤ (dynamicPowerUsed pkg (idlePowerUsed (update_power_bounds m pkg)) : ℚ) := by
  have hT' : 0 < ((weightedUtils ctt cu).map Prod.snd).sum := hT
  have hidle : idlePowerUsed (update_power_bounds m pkg) < 2 ^ 32 := idlePowerUsed_lt hb hpkg
  have hd : dynamicPowerUsed pkg (idlePowerUsed (update_power_bounds m pkg)) < 2 ^ 32 :=
    lt_of_le_of_lt (Nat.sub_le _ _) hpkg
  have hvals : ∀ y ∈ (weightedUtils ctt cu).map Prod.snd, 0 ≤ y := by
    intro y hy
    obtain ⟨p, hp, hpy⟩ := List.mem_map.mp hy
    exact hpy ▸ weightedUtils_nonneg hutil p hp
  -- each weighted utilization is at most the total
  have hwT : ∀ p ∈ weightedUtils ctt cu, p.2 ≤ ((weightedUtils ctt cu).map Prod.snd).sum :=
    fun p hp => mem_le_sum_of_nonneg hvals p.2 (List.mem_map_of_mem Prod.snd hp)
  -- the busy branch, as a plain map over the weighted utilizations
  have hmap : (estimate_core_powers m pkg ctt cu).2
      = (weightedUtils ctt cu).map (fun p =>
          (p.1, addU64
            (entryIdleBaseline (update_power_bounds m pkg)
              (idlePowerUsed (update_power_bounds m pkg)) ctt p.1)
            (coreDynamicShare
              (dynamicPowerUsed pkg (idlePowerUsed (update_power_bounds m pkg)))
              p.2 (((weightedUtils ctt cu).map Prod.snd).sum)))) := by
    rw [estimate_core_powers_busy m pkg ctt cu hT]
    apply filterMap_eq_map_of_forall_some
    intro p hp
    obtain ⟨q, hq, hq1, ths, ct, hl, hval⟩ := mem_weightedUtils hp
    rw [hl]
    unfold entryIdleBaseline
    rw [hl]
  -- without overflow, the stored value splits as baseline + share
  have haddU64 : ∀ p ∈ weightedUtils ctt cu,
      addU64 (entryIdleBaseline (update_power_bounds m pkg)
          (idlePowerUsed (update_power_bounds m pkg)) ctt p.1)
        (coreDynamicShare
          (dynamicPowerUsed pkg (idlePowerUsed (update_power_bounds m pkg)))
          p.2 (((weightedUtils ctt cu).map Prod.snd).sum))
      = entryIdleBaseline (update_power_bounds m pkg)
          (idlePowerUsed (update_power_bounds m pkg)) ctt p.1
        + coreDynamicShare
            (dynamicPowerUsed pkg (idlePowerUsed (update_power_bounds m pkg)))
            p.2 (((weightedUtils ctt cu).map Prod.snd).sum) := by
    intro p hp
    have hB := @entryIdleBaseline_lt m pkg
      (idlePowerUsed (update_power_bounds m pkg)) p.1 ctt hb hidle
    have hS : coreDynamicShare
        (dynamicPowerUsed pkg (idlePowerUsed (update_power_bounds m pkg)))
        p.2 (((weightedUtils ctt cu).map Prod.snd).sum)
        ≤ dynamicPowerUsed pkg (idlePowerUsed (update_power_bounds m pkg)) :=
      coreDynamicShare_le_dynamic (weightedUtils_nonneg hutil p hp) (hwT p hp) hT'
    unfold addU64 U64
    apply Nat.mod_eq_of_lt
    have h32 : (2 : Nat) ^ 32 + 2 ^ 32 ≤ 2 ^ 64 := by norm_num
    omega
  -- the per-entry contribution is exactly the truncated share
  have hsum : ((estimate_core_powers m pkg ctt cu).2.map (fun e =>
        (e.2 : ℚ) - (entryIdleBaseline (update_power_bounds m pkg)
          (idlePowerUsed (update_power_bounds m pkg)) ctt e.1 : ℚ))).sum
      = ((weightedUtils ctt cu).map (fun p =>
          ((coreDynamicShare
            (dynamicPowerUsed pkg (idlePowerUsed (update_power_bounds m pkg)))
            p.2 (((weightedUtils ctt cu).map Prod.snd).sum) : Nat) : ℚ))).sum := by
    rw [hmap, List.map_map]
    apply congrArg List.sum
    apply List.map_congr_left
    intro p hp
    simp only [Function.comp]
    rw [haddU64 p hp]
    push_cast
    ring
  have hlen : ((estimate_core_powers m pkg ctt cu).2.length : ℚ)
      = ((weightedUtils ctt cu).length : ℚ) := by
    rw [hmap, List.length_map]
  have hne : weightedUtils ctt cu ≠ [] := by
    intro he
    rw [he] at hT'
    simp at hT'
  -- the exact rational shares sum to the dynamic power
  have hexact : ((weightedUtils ctt cu).map (fun p =>
        (dynamicPowerUsed pkg (idlePowerUsed (update_power_bounds m pkg)) : ℚ)
          * (p.2 / ((weightedUtils ctt cu).map Prod.snd).sum))).sum
      = (dynamicPowerUsed pkg (idlePowerUsed (update_power_bounds m pkg)) : ℚ) := by
    rw [List.sum_map_mul_left]
    simp only [div_eq_mul_inv]
    rw [List.sum_map_mul_right]
    rw [mul_inv_cancel₀ (ne_of_gt hT'), mul_one]
  rw [hsum, hlen]
  constructor
  · -- lower bound: each truncated share exceeds its exact share minus one
    have hlow : ((weightedUtils ctt cu).map (fun p =>
          (dynamicPowerUsed pkg (idlePowerUsed (update_power_bounds m pkg)) : ℚ)
            * (p.2 / ((weightedUtils ctt cu).map Prod.snd).sum) - 1)).sum
        < ((weightedUtils ctt cu).map (fun p =>
          ((coreDynamicShare
            (dynamicPowerUsed pkg (idlePowerUsed (update_power_bounds m pkg)))
            p.2 (((weightedUtils ctt cu).map Prod.snd).sum) : Nat) : ℚ))).sum := by
      apply List.sum_lt_sum
      · intro p hp
        exact le_of_lt (ratio_sub_one_lt_coreDynamicShare
          (weightedUtils_nonneg hutil p hp) hT')
      · obtain ⟨p, hp⟩ := List.exists_mem_of_ne_nil _ hne
        exact ⟨p, hp, ratio_sub_one_lt_coreDynamicShare
          (weightedUtils_nonneg hutil p hp) hT'⟩
    rw [list_sum_map_sub_one, hexact] at hlow
    exact hlow
  · -- upper bound: truncation never exceeds the exact share
    have hup : ((weightedUtils ctt cu).map (fun p =>
          ((coreDynamicShare
            (dynamicPowerUsed pkg (idlePowerUsed (update_power_bounds m pkg)))
            p.2 (((weightedUtils ctt cu).map Prod.snd).sum) : Nat) : ℚ))).sum
        ≤ ((weightedUtils ctt cu).map (fun p =>
          (dynamicPowerUsed pkg (idlePowerUsed (update_power_bounds m pkg)) : ℚ)
            * (p.2 / ((weightedUtils ctt cu).map Prod.snd).sum))).sum :=
      List.sum_le_sum fun p hp =>
        coreDynamicShare_le_ratio (weightedUtils_nonneg hutil p hp) hT'
    rw [hexact] at hup
    exact hup

/-- Closed instance of claim C2: two busy cores share 1000 µW of dynamic
power and the truncated shares sum to at most the dynamic power. -/
theorem claim_C2_witness :
    ((estimate_core_powers IntelCoreMapper.new 1000
        [(0, ([0], CoreType.PCore)), (1, ([1], CoreType.ECore))]
        [(0, 1), (1, 1)]).2.map (fun e =>
          (e.2 : ℚ) - (entryIdleBaseline (update_power_bounds IntelCoreMapper.new 1000)
            (idlePowerUsed (update_power_bounds IntelCoreMapper.new 1000))
            [(0, ([0], CoreType.PCore)), (1, ([1], CoreType.ECore))] e.1 : ℚ))).sum
      ≤ (dynamicPowerUsed 1000
          (idlePowerUsed (update_power_bounds IntelCoreMapper.new 1000)) : ℚ) :=
  (claim_C2 IntelCoreMapper.new 1000
    [(0, ([0], CoreType.PCore)), (1, ([1], CoreType.ECore))] [(0, 1), (1, 1)]
    (by intro q hq; fin_cases hq <;> norm_num)
    (by simp [totalWeightedUtil, weightedUtils, lookupA, coreTypeWeight]; norm_num)
    (by norm_num)
    ⟨fun v h => Option.noConfusion h, fun v h => Option.noConfusion h,
      fun v h => Option.noConfusion h, fun v h => Option.noConfusion h,
      fun c v h => Option.noConfusion h⟩).2

/-! ## C7: the topology invariant -/

theorem lookupA_insertA {β : Type _} (l : List (Nat × β)) (k k' : Nat) (v : β) :
    lookupA (insertA l k v) k' = if k = k' then some v else lookupA l k' := by
  induction l with
  | nil =>
      by_cases h : k = k' <;> simp [insertA, lookupA, h]
  | cons a rest ih =>
      obtain ⟨ka, va⟩ := a
      by_cases hak : ka = k
      · subst hak
        by_cases h : ka = k' <;> simp [insertA, lookupA, h]
      · by_cases hak' : ka = k'
        · subst hak'
          have hk : k ≠ ka := fun he => hak he.symm
          simp [insertA, lookupA, hak, hk]
        · simp [insertA, lookupA, hak, hak', ih]

theorem lookupA_addToCore (upd : CoreType → CoreType → CoreType)
    (l : List (Nat × (List Nat × CoreType))) (core cpu : Nat) (ct : CoreType) (c : Nat) :
    lookupA (addToCore upd l core cpu ct) c
      = if core = c then
          some (match lookupA l core with
                | some (ths, t) => (ths ++ [cpu], upd t ct)
                | none => ([cpu], ct))
        else lookupA l c := by
  induction l with
  | nil =>
      by_cases h : core = c <;> simp [addToCore, lookupA, h]
  | cons a rest ih =>
      obtain ⟨ka, ths, t⟩ := a
      by_cases hka : ka = core
      · subst hka
        by_cases h : ka = c <;> simp [addToCore, lookupA, h]
      · have h1 : ¬ core = ka := fun he => hka he.symm
        by_cases h : ka = c
        · subst h
          simp [addToCore, lookupA, hka, h1]
        · simp only [addToCore, if_neg hka, lookupA, if_neg h, ih]

theorem flatten_addToCore (upd : CoreType → CoreType → CoreType) (core cpu : Nat)
    (ct : CoreType) :
    ∀ l : List (Nat × (List Nat × CoreType)),
      List.Perm (((addToCore upd l core cpu ct).map fun e => e.2.1).flatten)
        (cpu :: ((l.map fun e => e.2.1).flatten)) := by
  intro l
  induction l with
  | nil => simp [addToCore]
  | cons a rest ih =>
      obtain ⟨ka, ths, t⟩ := a
      by_cases h : ka = core
      · subst h
        simp only [addToCore, if_pos rfl, List.map_cons, List.flatten_cons]
        have h1 : List.Perm ((ths ++ [cpu]) ++ (rest.map fun e => e.2.1).flatten)
            ((cpu :: ths) ++ (rest.map fun e => e.2.1).flatten) :=
          (List.perm_append_singleton cpu ths).append_right _
        simp only [List.cons_append] at h1
        exact h1
      · simp only [addToCore, if_neg h, List.map_cons, List.flatten_cons]
        exact (ih.append_left ths).trans List.perm_middle

theorem threadsOf_addThread (upd : CoreType → CoreType → CoreType) (ctype : Nat → CoreType)
    (m : TopoMaps) (p : Nat × Nat) :
    List.Perm (threadsOf (addThread upd ctype m p)) (p.1 :: threadsOf m) :=
  flatten_addToCore upd p.2 p.1 (ctype p.1) m.core_to_threads

theorem topoInv_addThread (upd : CoreType → CoreType → CoreType) (ctype : Nat → CoreType)
    {m : TopoMaps} {P : List Nat} (h : TopoInv m P) (p : Nat × Nat) :
    TopoInv (addThread upd ctype m p) (p.1 :: P) := by
  refine ⟨(threadsOf_addThread upd ctype m p).trans (h.perm.cons p.1), ?_, ?_⟩
  · intro t c ty hl
    have hl' := hl
    rw [show (addThread upd ctype m p).thread_to_core
        = insertA m.thread_to_core p.1 (p.2, ctype p.1) from rfl,
      lookupA_insertA] at hl'
    by_cases hpt : p.1 = t
    · rw [if_pos hpt] at hl'
      obtain ⟨hc, hty⟩ := Prod.mk.injEq .. ▸ Option.some.inj hl'
      subst hc
      rw [show (addThread upd ctype m p).core_to_threads
          = addToCore upd m.core_to_threads p.2 p.1 (ctype p.1) from rfl,
        lookupA_addToCore, if_pos rfl]
      cases hb : lookupA m.core_to_threads p.2 with
      | none =>
          exact ⟨[p.1], ctype p.1, rfl, hpt ▸ List.mem_singleton_self p.1⟩
      | some v =>
          obtain ⟨ths0, tty0⟩ := v
          exact ⟨ths0 ++ [p.1], upd tty0 (ctype p.1), rfl,
            List.mem_append_right ths0 (hpt ▸ List.mem_singleton_self p.1)⟩
    · rw [if_neg hpt] at hl'
      obtain ⟨ths, tty, hbucket, htmem⟩ := h.consistent t c ty hl'
      rw [show (addThread upd ctype m p).core_to_threads
          = addToCore upd m.core_to_threads p.2 p.1 (ctype p.1) from rfl,
        lookupA_addToCore]
      by_cases hpc : p.2 = c
      · subst hpc
        rw [if_pos rfl, hbucket]
        exact ⟨ths ++ [p.1], upd tty (ctype p.1), rfl, List.mem_append_left _ htmem⟩
      · rw [if_neg hpc]
        exact ⟨ths, tty, hbucket, htmem⟩
  · intro t ht
    rw [show (addThread upd ctype m p).thread_to_core
        = insertA m.thread_to_core p.1 (p.2, ctype p.1) from rfl,
      lookupA_insertA]
    by_cases hpt : p.1 = t
    · exact ⟨(p.2, ctype p.1), by rw [if_pos hpt]⟩
    · obtain ⟨e, he⟩ := h.total t (by
        rcases List.mem_cons.mp ht with he | he
        · exact absurd he.symm hpt
        · exact he)
      exact ⟨e, by rw [if_neg hpt]; exact he⟩

theorem topoInv_perm {m : TopoMaps} {P P' : List Nat} (h : TopoInv m P)
    (hp : List.Perm P P') : TopoInv m P' :=
  ⟨h.perm.trans hp, h.consistent, fun t ht => h.total t (hp.mem_iff.mpr ht)⟩

theorem topoInv_foldl (upd : CoreType → CoreType → CoreType) (ctype : Nat → CoreType) :
    ∀ (entries : List (Nat × Nat)) (m : TopoMaps) (P : List Nat),
      TopoInv m P →
      TopoInv (entries.foldl (addThread upd ctype) m) (entries.map Prod.fst ++ P) := by
  intro entries
  induction entries with
  | nil => intro m P h; simpa using h
  | cons p rest ih =>
      intro m P h
      rw [List.foldl_cons]
      have hrec := ih (addThread upd ctype m p) (p.1 :: P) (topoInv_addThread upd ctype h p)
      apply topoInv_perm hrec
      rw [List.map_cons, List.cons_append]
      exact List.perm_middle

theorem topoInv_nil : TopoInv ⟨[], []⟩ [] :=
  ⟨List.Perm.refl _, fun _ _ _ h => Option.noConfusion h,
    fun t ht => absurd ht (List.not_mem_nil t)⟩

theorem buildTopo_inv (upd : CoreType → CoreType → CoreType) (ctype : Nat → CoreType)
    (entries : List (Nat × Nat)) :
    TopoInv (buildTopo upd ctype entries) (entries.map Prod.fst) := by
  have h := topoInv_foldl upd ctype entries ⟨[], []⟩ [] topoInv_nil
  simpa using h

/-- Claim C7: every topology produced by `map_threads_to_cores` — through
the sysfs path (with its pairwise-distinct `cpuN` entries) or either
vendor's arithmetic fallback — assigns every logical thread id to exactly
one physical core: the bucket contents are exactly the thread-id set with
no duplicates, and the reverse map sends each thread id to the core whose
list contains it. -/
theorem claim_C7 :
    (∀ (entries : List (Nat × Nat)) (ctype : Nat → CoreType) (m : TopoMaps),
      (entries.map Prod.fst).Nodup →
      read_topology_from_sysfs entries ctype = some m →
      (threadsOf m).Nodup ∧
      (∀ t, t ∈ threadsOf m ↔ t ∈ entries.map Prod.fst) ∧
      (∀ t c ty, lookupA m.thread_to_core t = some (c, ty) →
        ∃ ths tty, lookupA m.core_to_threads c = some (ths, tty) ∧ t ∈ ths) ∧
      (∀ t, t ∈ entries.map Prod.fst → ∃ e, lookupA m.thread_to_core t = some e)) ∧
    (∀ (total_threads physical_cores : Nat) (ctype : Nat → CoreType),
      0 < physical_cores →
      (threadsOf (intel_map_threads_to_cores total_threads physical_cores ctype)).Nodup ∧
      (∀ t, t ∈ threadsOf (intel_map_threads_to_cores total_threads physical_cores ctype)
          ↔ t < total_threads) ∧
      (∀ t c ty,
        lookupA (intel_map_threads_to_cores total_threads physical_cores ctype).thread_to_core t
          = some (c, ty) →
        ∃ ths tty,
          lookupA (intel_map_threads_to_cores total_threads physical_cores ctype).core_to_threads c
            = some (ths, tty) ∧ t ∈ ths) ∧
      (∀ t, t < total_threads →
        ∃ e, lookupA (intel_map_threads_to_cores total_threads physical_cores ctype).thread_to_core t
          = some e)) ∧
    (∀ (total_threads physical_cores : Nat),
      0 < physical_cores → physical_cores ≤ total_threads →
      (threadsOf (amd_map_threads_to_cores total_threads physical_cores)).Nodup ∧
      (∀ t, t ∈ threadsOf (amd_map_threads_to_cores total_threads physical_cores)
          ↔ t < total_threads) ∧
      (∀ t c ty,
        lookupA (amd_map_threads_to_cores total_threads physical_cores).thread_to_core t
          = some (c, ty) →
        ∃ ths tty,
          lookupA (amd_map_threads_to_cores total_threads physical_cores).core_to_threads c
            = some (ths, tty) ∧ t ∈ ths) ∧
      (∀ t, t < total_threads →
        ∃ e, lookupA (amd_map_threads_to_cores total_threads physical_cores).thread_to_core t
          = some e)) := by
  have hrange : ∀ (f : Nat → Nat) (n : Nat),
      ((List.range n).map fun t => (t, f t)).map Prod.fst = List.range n := by
    intro f n
    rw [List.map_map]
    have hc : (Prod.fst ∘ fun t => (t, f t)) = id := rfl
    rw [hc, List.map_id]
  refine ⟨?_, ?_, ?_⟩
  · intro entries ctype m hnd hread
    have hm : m = buildTopo updUnknown ctype entries := by
      simp only [read_topology_from_sysfs] at hread
      split at hread
      · cases hread
      · exact (Option.some.inj hread).symm
    subst hm
    have h := buildTopo_inv updUnknown ctype entries
    exact ⟨h.perm.nodup_iff.mpr hnd, fun t => h.perm.mem_iff, h.consistent, h.total⟩
  · intro total_threads physical_cores ctype _
    have h := buildTopo_inv updUnknown ctype
      ((List.range total_threads).map fun t =>
        (t, if t < physical_cores then t else t % physical_cores))
    rw [hrange] at h
    have h' : TopoInv (intel_map_threads_to_cores total_threads physical_cores ctype)
        (List.range total_threads) := h
    exact ⟨h'.perm.nodup_iff.mpr (List.nodup_range total_threads),
      fun t => h'.perm.mem_iff.trans List.mem_range,
      h'.consistent,
      fun t ht => h'.total t (List.mem_range.mpr ht)⟩
  · intro total_threads physical_cores hpc _
    have h := buildTopo_inv (fun old _ => old) (fun _ => CoreType.Unknown)
      ((List.range total_threads).map fun t =>
        (t, t / (if 0 < physical_cores then total_threads / physical_cores else 1)))
    rw [hrange] at h
    have h' : TopoInv (amd_map_threads_to_cores total_threads physical_cores)
        (List.range total_threads) := h
    exact ⟨h'.perm.nodup_iff.mpr (List.nodup_range total_threads),
      fun t => h'.perm.mem_iff.trans List.mem_range,
      h'.consistent,
      fun t ht => h'.total t (List.mem_range.mpr ht)⟩

/-- Closed instance of claim C7: three threads over two cores from the
sysfs path, with no duplicated thread id in the buckets. -/
theorem claim_C7_witness :
    (threadsOf (buildTopo updUnknown (fun _ => CoreType.Unknown)
      [(0, 0), (1, 0), (2, 1)])).Nodup :=
  (claim_C7.1 [(0, 0), (1, 0), (2, 1)] (fun _ => CoreType.Unknown)
    (buildTopo updUnknown (fun _ => CoreType.Unknown) [(0, 0), (1, 0), (2, 1)])
    (by decide) (by decide)).1
